import Mathlib

/-!
Verification of the collaborative-editor core (character diff, operational
transformation, content-addressed version store, server merge protocol).

Document content is modelled as `List Char` (JS strings indexed by code
unit).  Fallible JS values (`undefined` fields, nullable hashes) are
modelled with `Option`; a JS function argument that may throw is modelled
as `Except String`-valued.  Machine numbers used as positions/offsets are
plain mathematical integers: the program only adds, subtracts and compares
them, far below any overflow boundary.
-/

namespace Ink

/-- Tag of a single-character diff entry (versioning.ts, `CharDiff`). -/
inductive CharTag where
  | added
  | removed
  | unchanged
deriving DecidableEq, Repr

/-- A diff for a single character (versioning.ts, `CharDiff`). -/
structure CharDiff where
  char : Char
  type : CharTag
deriving DecidableEq, Repr

/-- Tag of a line-level diff entry (versioning.ts, `DiffResult.type`). -/
inductive DiffTag where
  | added
  | removed
  | unchanged
  | modified
deriving DecidableEq, Repr

/-- Result of a diff (versioning.ts, `DiffResult`).  The modelled code
reads only `type`, `line`, `charDiffs` and `oldLine`; the purely
informational `oldLineNumber` / `newLineNumber` / `newLine` fields are
never read by `diffToOperations` and are omitted. -/
structure DiffResult where
  type : DiffTag
  line : List Char
  charDiffs : Option (List CharDiff) := none
  oldLine : Option (List Char) := none
deriving DecidableEq, Repr

/-- Operation tag (ot.ts, `Operation.type`). -/
inductive OpTag where
  | retain
  | insert
  | delete
deriving DecidableEq, Repr

/-- An OT operation (ot.ts, `Operation`).  `length` and `text` are the
optional fields of the source interface; `position` is absolute in the
document the operation list was authored against. -/
structure Operation where
  type : OpTag
  length : Option Int := none
  text : Option (List Char) := none
  position : Int
deriving DecidableEq, Repr

/-! Diff engine (versioning.ts) -/

/-- One inner step of the LCS dynamic-programming row computation:
given `c = chars1[i-1]`, the remaining right-hand characters, the previous
row (`dp[i-1]`) aligned so that its head is `dp[i-1][j-1]`, and the value
`dp[i][j-1]` just computed, produce `dp[i][j], dp[i][j+1], …`. -/
def lcsRowAux (c : Char) : List Char → List Nat → Nat → List Nat
  | [], _, _ => []
  | bj :: bs, p1 :: p2 :: ps, cur =>
    let v := if c = bj then p1 + 1 else max p2 cur
    v :: lcsRowAux c bs (p2 :: ps) v
  | _ :: _, _, _ => []

/-- Row `i` of the DP table (versioning.ts, inner `for` loop of
`generateCharacterDiff`): entry 0 is 0, entry `j ≥ 1` is
`dp[i-1][j-1] + 1` when the characters match and
`max (dp[i-1][j]) (dp[i][j-1])` otherwise. -/
def lcsRow (c : Char) (b : List Char) (prev : List Nat) : List Nat :=
  0 :: lcsRowAux c b prev 0

/-- All rows of the DP table starting from a given row 0
(versioning.ts, outer `for` loop of `generateCharacterDiff`). -/
def lcsTableRows (b : List Char) : List Char → List Nat → List (List Nat)
  | [], prev => [prev]
  | c :: as_, prev => prev :: lcsTableRows b as_ (lcsRow c b prev)

/-- The `(n+1) × (m+1)` LCS table `dp` of `generateCharacterDiff`:
row 0 is all zeros, row `i` is produced from row `i-1`. -/
def lcsTable (a b : List Char) : List (List Nat) :=
  lcsTableRows b a (List.replicate (b.length + 1) 0)

/-- Table lookup `dp[i][j]` (out-of-range reads only occur at indices the
JS code never reads; they default to 0). -/
def dpAt (table : List (List Nat)) (i j : Nat) : Nat :=
  (table.getD i []).getD j 0

/-- The backtracking `while` loop of `generateCharacterDiff`
(versioning.ts lines 73-89).  `fuel` bounds the number of iterations;
every iteration decreases `i + j`, so `fuel = i + j` is exact.  `acc` is
the `result` array: the JS loop `unshift`s each entry, so entries found
later (at smaller `i + j`) end up in front. -/
def backtrackGo (a b : List Char) (table : List (List Nat)) :
    Nat → Nat → Nat → List CharDiff → List CharDiff
  | 0, _, _, acc => acc
  | fuel + 1, i, j, acc =>
    if i = 0 ∧ j = 0 then acc
    else if 0 < i ∧ 0 < j ∧ a.getD (i - 1) default = b.getD (j - 1) default then
      backtrackGo a b table fuel (i - 1) (j - 1)
        ({ char := a.getD (i - 1) default, type := .unchanged } :: acc)
    else if 0 < j ∧ (i = 0 ∨ dpAt table i (j - 1) ≥ dpAt table (i - 1) j) then
      backtrackGo a b table fuel i (j - 1)
        ({ char := b.getD (j - 1) default, type := .added } :: acc)
    else if 0 < i ∧ (j = 0 ∨ dpAt table i (j - 1) < dpAt table (i - 1) j) then
      backtrackGo a b table fuel (i - 1) j
        ({ char := a.getD (i - 1) default, type := .removed } :: acc)
    else acc

/-- Model of `generateCharacterDiff` (versioning.ts lines 53-91): build the LCS
table and walk it back from `(n, m)` to `(0, 0)`. -/
def generateCharacterDiff (line1 line2 : List Char) : List CharDiff :=
  backtrackGo line1 line2 (lcsTable line1 line2)
    (line1.length + line2.length) line1.length line2.length []

/-- The per-character `DiffResult` that `diff` pushes for one `CharDiff`
(versioning.ts lines 105-126). -/
def charDiffToResult (cd : CharDiff) : DiffResult :=
  match cd.type with
  | .unchanged => { type := .unchanged, line := [cd.char] }
  | .added => { type := .added, line := [cd.char] }
  | .removed => { type := .removed, line := [cd.char] }

/-- Model of `diff` (versioning.ts lines 96-129): empty on equal inputs, otherwise
each character diff becomes an individual single-character `DiffResult`. -/
def diff (text1 text2 : List Char) : List DiffResult :=
  if text1 = text2 then []
  else (generateCharacterDiff text1 text2).map charDiffToResult

/-! Operation model (ot.ts) -/

/-- The inner loop of the `modified` case of `diffToOperations`
(ot.ts lines 48-76): walk the character diffs with a cursor `charPos`;
`unchanged`/`removed` consume one source character, `added` does not. -/
def modifiedOps (charPos : Int) : List CharDiff → List Operation
  | [] => []
  | cd :: rest =>
    match cd.type with
    | .unchanged =>
      { type := .retain, length := some 1, position := charPos } ::
        modifiedOps (charPos + 1) rest
    | .added =>
      { type := .insert, text := some [cd.char], position := charPos } ::
        modifiedOps charPos rest
    | .removed =>
      { type := .delete, length := some 1, position := charPos } ::
        modifiedOps (charPos + 1) rest

/-- Model of `diffToOperations` (ot.ts lines 14-85) as a recursion over the diff
list, carrying the cursor `position` into the original document.
`unchanged` emits a retain and advances by the line length, `added` emits
an insert without advancing, `removed` emits a delete and advances;
`modified` expands its character diffs (skipped entirely when `charDiffs`
is absent, exactly as the `if (diff.charDiffs)` guard does) and then
advances by `oldLine?.length || 0`. -/
def diffToOpsGo (position : Int) : List DiffResult → List Operation
  | [] => []
  | d :: rest =>
    match d.type with
    | .unchanged =>
      { type := .retain, length := some (d.line.length : Int), position := position } ::
        diffToOpsGo (position + d.line.length) rest
    | .added =>
      { type := .insert, text := some d.line, position := position } ::
        diffToOpsGo position rest
    | .removed =>
      { type := .delete, length := some (d.line.length : Int), position := position } ::
        diffToOpsGo (position + d.line.length) rest
    | .modified =>
      match d.charDiffs with
      | some cds =>
        modifiedOps position cds ++
          diffToOpsGo (position + ((d.oldLine.map fun l => (l.length : Int)).getD 0)) rest
      | none => diffToOpsGo position rest

/-- Model of `diffToOperations` (ot.ts lines 14-85); the cursor starts at 0. -/
def diffToOperations (diffs : List DiffResult) : List Operation :=
  diffToOpsGo 0 diffs

/-- Model of `op.text?.length || 0` (JS): the length of the optional text, 0 when
the field is absent (and also 0 for empty text, which has length 0). -/
def textLen (op : Operation) : Int :=
  (op.text.map fun t => (t.length : Int)).getD 0

/-- Model of `op.length || 0` (JS): the optional length, 0 when absent. -/
def lenOrZero (op : Operation) : Int :=
  op.length.getD 0

/-! Transform (ot.ts, `transformOperations`) -/

/-- The offset adjustment a server operation contributes when it lies
strictly to the left of the remaining client operations
(ot.ts lines 129-133): `+|text|` for insert, `-length` for delete,
nothing for retain. -/
def serverAdjust (s : Operation) : Int :=
  match s.type with
  | .insert => textLen s
  | .delete => -(lenOrZero s)
  | .retain => 0

/-- The `while` loop of `transformOperations` (ot.ts lines 100-156).
`fuel` bounds the iteration count; every iteration pops at least one
element from one of the two lists, so `|clientOps| + |serverOps|` fuel is
exact.  `acc` is the `transformed` array (pushed at the back).  The
`if (!clientOp)` guard of the source skips sparse-array holes, which a
`List Operation` cannot contain, so it has no counterpart here. -/
def transformGo : Nat → List Operation → List Operation → Int →
    List Operation → List Operation
  | _, [], _, _, acc => acc
  | 0, _ :: _, _, _, acc => acc
  | fuel + 1, c :: cs, [], offset, acc =>
    transformGo fuel cs [] offset (acc ++ [{ c with position := c.position + offset }])
  | fuel + 1, c :: cs, s :: ss, offset, acc =>
    if c.position < s.position then
      transformGo fuel cs (s :: ss) offset
        (acc ++ [{ c with position := c.position + offset }])
    else if s.position < c.position then
      transformGo fuel (c :: cs) ss (offset + serverAdjust s) acc
    else
      match c.type, s.type with
      | .insert, .insert =>
        transformGo fuel cs ss offset
          (acc ++ [{ c with position := c.position + textLen s }])
      | .delete, .delete =>
        transformGo fuel cs ss offset acc
      | _, _ =>
        transformGo fuel cs ss offset
          (acc ++ [{ c with position := c.position + offset }])

/-- Model of `transformOperations` (ot.ts lines 91-159). -/
def transformOperations (clientOps serverOps : List Operation) : List Operation :=
  transformGo (clientOps.length + serverOps.length) clientOps serverOps 0 []

/-! Apply (ot.ts, `applyOperations`) -/

/-- The index a JS `String.prototype.slice` argument denotes in a string
of length `len`: a negative argument counts from the end (floored at 0),
a large one is clamped to `len`. -/
def jsIndex (len : Nat) (v : Int) : Nat :=
  if v < 0 then ((len : Int) + v).toNat else min v.toNat len

/-- Model of `s.slice(0, v)` for a JS string. -/
def jsTake (s : List Char) (v : Int) : List Char :=
  s.take (jsIndex s.length v)

/-- Model of `s.slice(v)` for a JS string. -/
def jsDrop (s : List Char) (v : Int) : List Char :=
  s.drop (jsIndex s.length v)

/-- The `for` loop of `applyOperations` (ot.ts lines 174-197), walking the
already-sorted operations with the running `offset`.  When an insert's
`text` field is absent, the JS string concatenation coerces `undefined`
to the literal text `"undefined"` while `op.text?.length || 0` still
contributes 0 to the offset; both are modelled exactly. -/
def applyGo : List Char → Int → List Operation → List Char
  | result, _, [] => result
  | result, offset, op :: rest =>
    let adjustedPosition := op.position + offset
    match op.type with
    | .insert =>
      applyGo
        (jsTake result adjustedPosition ++ (op.text.getD "undefined".toList) ++
          jsDrop result adjustedPosition)
        (offset + textLen op) rest
    | .delete =>
      applyGo
        (jsTake result adjustedPosition ++
          jsDrop result (adjustedPosition + lenOrZero op))
        (offset - lenOrZero op) rest
    | .retain => applyGo result offset rest

/-- Ordering used by the sort in `applyOperations`
(`(a, b) => a.position - b.position`). -/
def posLe (x y : Operation) : Prop :=
  x.position ≤ y.position

instance : DecidableRel posLe := fun x y => Int.decLe x.position y.position

/-- Model of `applyOperations` (ot.ts lines 164-200): sort a copy of the
operations by position (JS `Array.prototype.sort` is stable, modelled by
a stable insertion sort) and fold them over the content. -/
def applyOperations (content : List Char) (operations : List Operation) : List Char :=
  applyGo content 0 (List.insertionSort posLe operations)

/-! operationalTransform (ot.ts lines 205-234) -/

/-- Result record of `operationalTransform`: `{success: true,
mergedContent}` or `{success: false, error}`. -/
inductive OTResult where
  | ok (mergedContent : List Char)
  | failure (error : String)
deriving DecidableEq, Repr

/-- Model of `operationalTransform` (ot.ts lines 205-234).  The `diffFunction`
argument is an arbitrary caller-supplied function and may throw, modelled
as an `Except`; the `try/catch` turns a raised message `e` into
`{success: false, error: "OT failed: " ++ e}`.  Everything inside the
`try` other than the two `diffFunction` calls (`diffToOperations`,
`transformOperations`, `applyOperations`) is total and cannot raise. -/
def operationalTransform (baseContent clientContent serverContent : List Char)
    (diffFunction : List Char → List Char → Except String (List DiffResult)) : OTResult :=
  match diffFunction baseContent serverContent with
  | .error e => .failure ("OT failed: " ++ e)
  | .ok serverDiffs =>
    match diffFunction baseContent clientContent with
    | .error e => .failure ("OT failed: " ++ e)
    | .ok clientDiffs =>
      .ok (applyOperations serverContent
        (transformOperations (diffToOperations clientDiffs)
          (diffToOperations serverDiffs)))

/-- The repository's own `diff` seen as a (never-throwing) diff function,
as passed by the sync server (`operationalTransform(…, diff)`). -/
def diffE (a b : List Char) : Except String (List DiffResult) :=
  .ok (diff a b)

/-! Version store (versioning.ts, `VersionHistory`)

SHA-1 keys are modelled by an abstract key type `H` together with a hash
function `GitObject H → H`; the store's round-trip properties hold under
the collision-freedom (injectivity) the design assumes of SHA-1.
`hashObject`'s serialization (raw text for blobs, canonical JSON for
trees and commits) is absorbed into that function. -/

/-- A stored object: blob, single-entry tree, or commit
(versioning.ts, `GitObject`). -/
inductive GitObject (H : Type) where
  | blob (content : List Char)
  | tree (filename : String) (blobHash : H)
  | commit (tree : H) (parent : Option H) (message timestamp : String)
deriving DecidableEq, Repr

/-- The `VersionHistory` state: the object `Map`, `HEAD`, and the
filename used as the single tree key. -/
structure Store (H : Type) where
  db : List (H × GitObject H)
  HEAD : Option H
  filename : String
deriving DecidableEq, Repr

variable {H : Type}

/-- A fresh history (constructor of `VersionHistory`). -/
def emptyStore (filename : String) : Store H :=
  { db := [], HEAD := none, filename := filename }

/-- Model of `Map.get`: the most recently set binding of a key.  `Map.set` is
modelled by prepending, so the first binding found is the live one. -/
def dbGet [DecidableEq H] : List (H × GitObject H) → H → Option (GitObject H)
  | [], _ => none
  | (k, v) :: rest, h => if h = k then some v else dbGet rest h

/-- Model of `VersionHistory.getHeadHash`. -/
def getHeadHash (st : Store H) : Option H :=
  st.HEAD

/-- Model of `if (!this.db.has(hash)) this.db.set(hash, value)`: insert a binding
only when the key is not yet present. -/
def dbInsertIfAbsent [DecidableEq H] (db : List (H × GitObject H)) (k : H)
    (v : GitObject H) : List (H × GitObject H) :=
  if (dbGet db k).isSome then db else (k, v) :: db

/-- Model of `VersionHistory.commit` (versioning.ts lines 151-170): insert the
blob and the tree only if their hashes are not yet present, insert the
commit unconditionally (`db.set`), advance `HEAD`.  An empty `message`
falls back to `Commit at <timestamp>` (`message || …`); the timestamp is
the caller-visible clock reading, passed in explicitly. -/
def commit [DecidableEq H] (hashFn : GitObject H → H) (st : Store H)
    (content : List Char) (message timestamp : String) : Store H × H :=
  let blobHash := hashFn (.blob content)
  let db1 := dbInsertIfAbsent st.db blobHash (GitObject.blob content)
  let treeObj := GitObject.tree st.filename blobHash
  let treeHash := hashFn treeObj
  let db2 := dbInsertIfAbsent db1 treeHash treeObj
  let msg := if message = "" then "Commit at " ++ timestamp else message
  let commitObj := GitObject.commit treeHash st.HEAD msg timestamp
  let commitHash := hashFn commitObj
  ({ db := (commitHash, commitObj) :: db2,
     HEAD := some commitHash,
     filename := st.filename }, commitHash)

/-- Model of `VersionHistory.getContent` (versioning.ts lines 172-182): resolve
commit → tree → blob, `none` when the hash is null/absent or a link does
not lead on (a non-commit object has no usable `tree` field and a
non-matching tree key yields no blob hash, both of which the source's
falsiness checks turn into `null`; `null` and JS `undefined` are both
modelled as `none`). -/
def getContent [DecidableEq H] (st : Store H) (commitHash : Option H) :
    Option (List Char) :=
  match commitHash with
  | none => none
  | some ch =>
    match dbGet st.db ch with
    | some (.commit t _ _ _) =>
      match dbGet st.db t with
      | some (.tree f bh) =>
        if f = st.filename then
          match dbGet st.db bh with
          | some (.blob s) => some s
          | _ => none
        else none
      | _ => none
    | _ => none

/-- Model of `VersionHistory.getCurrentContent`. -/
def getCurrentContent [DecidableEq H] (st : Store H) : Option (List Char) :=
  getContent st st.HEAD

/-- A sequence of `commit` calls (content, message, timestamp), oldest
first. -/
def commitMany [DecidableEq H] (hashFn : GitObject H → H) :
    Store H → List (List Char × String × String) → Store H
  | st, [] => st
  | st, (c, m, ts) :: rest => commitMany hashFn (commit hashFn st c m ts).1 rest

/-! Server sync handler (the `websocket.message` handler of the sync
server, lines 117-206) -/

/-- A message the server sends over a socket in response to a sync. -/
inductive ServerMsg (H : Type) where
  | ack (newHash : H)
  | update (latestHash : H) (operations : List Operation)
  | error (message : String)
  | conflict (message : String)
deriving DecidableEq, Repr

/-- The `sync` branch of the server's `websocket.message` handler.
Returns the room history afterwards, the messages sent to the requesting
socket, and the messages broadcast to every other socket in the room.

The handler resolves the base, replies `error` and stops when it cannot;
fast-forwards (commit the client content verbatim, `ack`, broadcast the
client's own operations unconditionally) when the base is `HEAD`;
otherwise runs the merge: on OT failure reply `conflict` and stop
without committing, on success commit the merged content, `ack`, and
broadcast the server→merged delta only when it is non-empty.

`serverContent` is read through the source's `server_content!`
assertion; for every state reachable through `commit` the `HEAD` chain
resolves (proved below), so the `none` fallback — which sends nothing —
is unreachable in the server. -/
def handleSync [DecidableEq H] (hashFn : GitObject H → H)
    (diffFunction : List Char → List Char → Except String (List DiffResult))
    (st : Store H) (baseHash : Option H) (clientOps : List Operation)
    (timestamp : String) :
    Store H × List (ServerMsg H) × List (ServerMsg H) :=
  match getContent st baseHash with
  | none => (st, [.error "Base hash not found. Please reload."], [])
  | some baseContent =>
    if baseHash = getHeadHash st then
      let clientContent := applyOperations baseContent clientOps
      let r := commit hashFn st clientContent "Update from client" timestamp
      (r.1, [.ack r.2], [.update r.2 clientOps])
    else
      let clientContent := applyOperations baseContent clientOps
      match getCurrentContent st with
      | none => (st, [], [])
      | some serverContent =>
        match operationalTransform baseContent clientContent serverContent diffFunction with
        | .failure e => (st, [.conflict e], [])
        | .ok mergedContent =>
          let r := commit hashFn st mergedContent "Merged update from client" timestamp
          let serverUpdateOps := diffToOperations (diff serverContent mergedContent)
          (r.1, [.ack r.2],
            if serverUpdateOps.length > 0 then [.update r.2 serverUpdateOps] else [])

/-! A concrete injective hash for witnesses

`MirrorHash` mirrors the shape of a `GitObject` over itself, giving a
computable, provably injective stand-in for SHA-1 (whose practical
collision-freedom is what the store design relies on). -/

inductive MirrorHash where
  | blob (content : List Char)
  | tree (filename : String) (blobHash : MirrorHash)
  | commitRoot (tree : MirrorHash) (message timestamp : String)
  | commitChild (tree : MirrorHash) (parent : MirrorHash) (message timestamp : String)
deriving DecidableEq, Repr

/-- The mirroring hash function for `GitObject MirrorHash`. -/
def mirrorHashFn : GitObject MirrorHash → MirrorHash
  | .blob c => .blob c
  | .tree f h => .tree f h
  | .commit t none m ts => .commitRoot t m ts
  | .commit t (some p) m ts => .commitChild t p m ts

theorem mirrorHashFn_injective : Function.Injective mirrorHashFn := by
  intro a b h
  match a, b with
  | .blob _, .blob _ => simp [mirrorHashFn] at h; simp [h]
  | .tree _ _, .tree _ _ => simp [mirrorHashFn] at h; simp [h.1, h.2]
  | .commit _ none _ _, .commit _ none _ _ =>
    simp [mirrorHashFn] at h; simp [h.1, h.2.1, h.2.2]
  | .commit _ (some _) _ _, .commit _ (some _) _ _ =>
    simp [mirrorHashFn] at h; simp [h.1, h.2.1, h.2.2.1, h.2.2.2]
  | .blob _, .tree _ _ => simp [mirrorHashFn] at h
  | .blob _, .commit _ none _ _ => simp [mirrorHashFn] at h
  | .blob _, .commit _ (some _) _ _ => simp [mirrorHashFn] at h
  | .tree _ _, .blob _ => simp [mirrorHashFn] at h
  | .tree _ _, .commit _ none _ _ => simp [mirrorHashFn] at h
  | .tree _ _, .commit _ (some _) _ _ => simp [mirrorHashFn] at h
  | .commit _ none _ _, .blob _ => simp [mirrorHashFn] at h
  | .commit _ none _ _, .tree _ _ => simp [mirrorHashFn] at h
  | .commit _ none _ _, .commit _ (some _) _ _ => simp [mirrorHashFn] at h
  | .commit _ (some _) _ _, .blob _ => simp [mirrorHashFn] at h
  | .commit _ (some _) _ _, .tree _ _ => simp [mirrorHashFn] at h
  | .commit _ (some _) _ _, .commit _ none _ _ => simp [mirrorHashFn] at h

/-! Consistency of the character diff

`diffLeft`/`diffRight` recover the two diffed strings from a character
diff: the left input is the `unchanged ++ removed` characters in order,
the right input the `unchanged ++ added` ones. -/

/-- Characters of a char diff that come from the left (old) string. -/
def diffLeft : List CharDiff → List Char
  | [] => []
  | cd :: rest =>
    match cd.type with
    | .unchanged => cd.char :: diffLeft rest
    | .removed => cd.char :: diffLeft rest
    | .added => diffLeft rest

/-- Characters of a char diff that come from the right (new) string. -/
def diffRight : List CharDiff → List Char
  | [] => []
  | cd :: rest =>
    match cd.type with
    | .unchanged => cd.char :: diffRight rest
    | .added => cd.char :: diffRight rest
    | .removed => diffRight rest

theorem take_eq_take_pred_append (l : List Char) (i : Nat) (h1 : 0 < i)
    (h2 : i ≤ l.length) :
    l.take i = l.take (i - 1) ++ [l.getD (i - 1) default] := by
  obtain ⟨k, rfl⟩ : ∃ k, i = k + 1 := ⟨i - 1, by omega⟩
  have hk : k < l.length := by omega
  have hd : l.getD k default = l[k] := by
    simp [List.getD_eq_getElem?_getD, List.getElem?_eq_getElem hk]
  rw [Nat.add_sub_cancel, List.take_succ, List.getElem?_eq_getElem hk, hd]
  rfl

theorem diffLeft_cons_unchanged (c : Char) (acc : List CharDiff) :
    diffLeft ({ char := c, type := .unchanged } :: acc) = c :: diffLeft acc := rfl

theorem diffLeft_cons_removed (c : Char) (acc : List CharDiff) :
    diffLeft ({ char := c, type := .removed } :: acc) = c :: diffLeft acc := rfl

theorem diffLeft_cons_added (c : Char) (acc : List CharDiff) :
    diffLeft ({ char := c, type := .added } :: acc) = diffLeft acc := rfl

theorem diffRight_cons_unchanged (c : Char) (acc : List CharDiff) :
    diffRight ({ char := c, type := .unchanged } :: acc) = c :: diffRight acc := rfl

theorem diffRight_cons_added (c : Char) (acc : List CharDiff) :
    diffRight ({ char := c, type := .added } :: acc) = c :: diffRight acc := rfl

theorem diffRight_cons_removed (c : Char) (acc : List CharDiff) :
    diffRight ({ char := c, type := .removed } :: acc) = diffRight acc := rfl

theorem backtrackGo_zero (a b : List Char) (table : List (List Nat))
    (i j : Nat) (acc : List CharDiff) :
    backtrackGo a b table 0 i j acc = acc := rfl

theorem backtrackGo_spec (a b : List Char) (table : List (List Nat)) :
    ∀ (fuel i j : Nat) (acc : List CharDiff), i ≤ a.length → j ≤ b.length →
      i + j ≤ fuel →
      diffLeft (backtrackGo a b table fuel i j acc) = a.take i ++ diffLeft acc ∧
      diffRight (backtrackGo a b table fuel i j acc) = b.take j ++ diffRight acc := by
  intro fuel
  induction fuel with
  | zero =>
    intro i j acc hi hj hf
    have hi0 : i = 0 := by omega
    have hj0 : j = 0 := by omega
    subst hi0; subst hj0
    rw [backtrackGo_zero]
    simp
  | succ n ih =>
    intro i j acc hi hj hf
    simp only [backtrackGo]
    by_cases h0 : i = 0 ∧ j = 0
    · rw [if_pos h0]
      obtain ⟨h01, h02⟩ := h0
      subst h01; subst h02
      simp
    · rw [if_neg h0]
      by_cases h1 : 0 < i ∧ 0 < j ∧ a.getD (i - 1) default = b.getD (j - 1) default
      · rw [if_pos h1]
        obtain ⟨hi1, hj1, hch⟩ := h1
        obtain ⟨L, R⟩ := ih (i - 1) (j - 1)
          ({ char := a.getD (i - 1) default, type := .unchanged } :: acc)
          (by omega) (by omega) (by omega)
        refine ⟨?_, ?_⟩
        · rw [L, diffLeft_cons_unchanged, take_eq_take_pred_append a i hi1 hi]
          simp
        · rw [R, diffRight_cons_unchanged, take_eq_take_pred_append b j hj1 hj, hch]
          simp
      · rw [if_neg h1]
        by_cases h2 : 0 < j ∧ (i = 0 ∨ dpAt table i (j - 1) ≥ dpAt table (i - 1) j)
        · rw [if_pos h2]
          obtain ⟨L, R⟩ := ih i (j - 1)
            ({ char := b.getD (j - 1) default, type := .added } :: acc)
            (by omega) (by omega) (by omega)
          refine ⟨?_, ?_⟩
          · rw [L, diffLeft_cons_added]
          · rw [R, diffRight_cons_added, take_eq_take_pred_append b j h2.1 hj]
            simp
        · rw [if_neg h2]
          by_cases h3 : 0 < i ∧ (j = 0 ∨ dpAt table i (j - 1) < dpAt table (i - 1) j)
          · rw [if_pos h3]
            obtain ⟨L, R⟩ := ih (i - 1) j
              ({ char := a.getD (i - 1) default, type := .removed } :: acc)
              (by omega) (by omega) (by omega)
            refine ⟨?_, ?_⟩
            · rw [L, diffLeft_cons_removed, take_eq_take_pred_append a i h3.1 hi]
              simp
            · rw [R, diffRight_cons_removed]
          · exfalso
            rcases Nat.eq_zero_or_pos i with hi0 | hip
            · have hjp : 0 < j := by omega
              exact h2 ⟨hjp, Or.inl hi0⟩
            · rcases Nat.eq_zero_or_pos j with hj0 | hjp
              · exact h3 ⟨hip, Or.inl hj0⟩
              · by_cases hge : dpAt table i (j - 1) ≥ dpAt table (i - 1) j
                · exact h2 ⟨hjp, Or.inr hge⟩
                · exact h3 ⟨hip, Or.inr (by omega)⟩

theorem generateCharacterDiff_left (a b : List Char) :
    diffLeft (generateCharacterDiff a b) = a := by
  have h := (backtrackGo_spec a b (lcsTable a b) (a.length + b.length)
    a.length b.length [] le_rfl le_rfl le_rfl).1
  simpa [generateCharacterDiff, diffLeft] using h

theorem generateCharacterDiff_right (a b : List Char) :
    diffRight (generateCharacterDiff a b) = b := by
  have h := (backtrackGo_spec a b (lcsTable a b) (a.length + b.length)
    a.length b.length [] le_rfl le_rfl le_rfl).2
  simpa [generateCharacterDiff, diffRight] using h

/-! From single-character diff results to operations

On the single-character results that `diff` produces,
`diffToOperations` generates exactly the operation stream of
`modifiedOps`: unit retains and deletes and single-character inserts,
with a nondecreasing position cursor. -/

theorem diffToOpsGo_map (cds : List CharDiff) :
    ∀ p : Int, diffToOpsGo p (cds.map charDiffToResult) = modifiedOps p cds := by
  induction cds with
  | nil => intro p; rfl
  | cons cd rest ih =>
    intro p
    obtain ⟨c, t⟩ := cd
    cases t <;>
      simp [diffToOpsGo, modifiedOps, charDiffToResult, ih]

theorem modifiedOps_cons_unchanged (c : Char) (p : Int) (rest : List CharDiff) :
    modifiedOps p (⟨c, .unchanged⟩ :: rest)
      = Operation.mk .retain (some 1) none p :: modifiedOps (p + 1) rest := rfl

theorem modifiedOps_cons_added (c : Char) (p : Int) (rest : List CharDiff) :
    modifiedOps p (⟨c, .added⟩ :: rest)
      = Operation.mk .insert none (some [c]) p :: modifiedOps p rest := rfl

theorem modifiedOps_cons_removed (c : Char) (p : Int) (rest : List CharDiff) :
    modifiedOps p (⟨c, .removed⟩ :: rest)
      = Operation.mk .delete (some 1) none p :: modifiedOps (p + 1) rest := rfl

theorem modifiedOps_pos_ge (cds : List CharDiff) :
    ∀ p : Int, ∀ op ∈ modifiedOps p cds, p ≤ op.position := by
  induction cds with
  | nil => intro p op h; simp [modifiedOps] at h
  | cons cd rest ih =>
    intro p op h
    obtain ⟨c, t⟩ := cd
    cases t
    case added =>
      rw [modifiedOps_cons_added] at h
      rcases List.mem_cons.mp h with h | h
      · subst h; simp
      · exact ih p op h
    case removed =>
      rw [modifiedOps_cons_removed] at h
      rcases List.mem_cons.mp h with h | h
      · subst h; simp
      · have := ih (p + 1) op h; omega
    case unchanged =>
      rw [modifiedOps_cons_unchanged] at h
      rcases List.mem_cons.mp h with h | h
      · subst h; simp
      · have := ih (p + 1) op h; omega

theorem modifiedOps_sorted (cds : List CharDiff) :
    ∀ p : Int, List.Sorted posLe (modifiedOps p cds) := by
  induction cds with
  | nil => intro p; simp [modifiedOps]
  | cons cd rest ih =>
    intro p
    obtain ⟨c, t⟩ := cd
    cases t
    case added =>
      rw [modifiedOps_cons_added, List.sorted_cons]
      refine ⟨fun op hop => ?_, ih _⟩
      have := modifiedOps_pos_ge rest p op hop
      simp only [posLe]; omega
    case removed =>
      rw [modifiedOps_cons_removed, List.sorted_cons]
      refine ⟨fun op hop => ?_, ih _⟩
      have := modifiedOps_pos_ge rest (p + 1) op hop
      simp only [posLe]; omega
    case unchanged =>
      rw [modifiedOps_cons_unchanged, List.sorted_cons]
      refine ⟨fun op hop => ?_, ih _⟩
      have := modifiedOps_pos_ge rest (p + 1) op hop
      simp only [posLe]; omega

theorem jsIndex_natCast (len n : Nat) (h : n ≤ len) :
    jsIndex len (n : Int) = n := by
  rw [jsIndex, if_neg (by omega)]
  rw [Int.toNat_natCast]
  omega

theorem jsTake_append (C X : List Char) :
    jsTake (C ++ X) (C.length : Int) = C := by
  rw [jsTake, List.length_append, jsIndex_natCast _ _ (by omega), List.take_left]

theorem jsDrop_append (C X : List Char) :
    jsDrop (C ++ X) (C.length : Int) = X := by
  rw [jsDrop, List.length_append, jsIndex_natCast _ _ (by omega), List.drop_left]

theorem applyGo_cons_retain (result : List Char) (offset : Int)
    (l : Option Int) (x : Option (List Char)) (pos : Int) (rest : List Operation) :
    applyGo result offset (Operation.mk .retain l x pos :: rest)
      = applyGo result offset rest := rfl

theorem applyGo_cons_insert (result : List Char) (offset : Int)
    (l : Option Int) (x : Option (List Char)) (pos : Int) (rest : List Operation) :
    applyGo result offset (Operation.mk .insert l x pos :: rest)
      = applyGo
          (jsTake result (pos + offset) ++ (x.getD "undefined".toList) ++
            jsDrop result (pos + offset))
          (offset + textLen (Operation.mk .insert l x pos))
          rest := rfl

theorem applyGo_cons_delete (result : List Char) (offset : Int)
    (l : Option Int) (x : Option (List Char)) (pos : Int) (rest : List Operation) :
    applyGo result offset (Operation.mk .delete l x pos :: rest)
      = applyGo
          (jsTake result (pos + offset) ++
            jsDrop result (pos + offset + lenOrZero (Operation.mk .delete l x pos)))
          (offset - lenOrZero (Operation.mk .delete l x pos))
          rest := rfl

theorem textLen_mk (t : OpTag) (l : Option Int) (x : List Char) (pos : Int) :
    textLen (Operation.mk t l (some x) pos) = (x.length : Int) := rfl

theorem lenOrZero_mk (t : OpTag) (n : Int) (x : Option (List Char)) (pos : Int) :
    lenOrZero (Operation.mk t (some n) x pos) = n := rfl

/-- The heart of the diff/apply round trip: running `applyGo` over the
operations generated from a character diff turns the unconsumed left
characters into the right characters, for any already-produced prefix
`C` and cursor `p`. -/
theorem applyGo_modifiedOps (cds : List CharDiff) :
    ∀ (C : List Char) (p : Nat),
      applyGo (C ++ diffLeft cds) ((C.length : Int) - (p : Int))
          (modifiedOps (p : Int) cds)
        = C ++ diffRight cds := by
  induction cds with
  | nil =>
    intro C p
    simp [applyGo, modifiedOps, diffLeft, diffRight]
  | cons cd rest ih =>
    intro C p
    obtain ⟨c, t⟩ := cd
    cases t
    case unchanged =>
      rw [diffLeft_cons_unchanged, diffRight_cons_unchanged,
        modifiedOps_cons_unchanged, applyGo_cons_retain]
      have h1 : C ++ c :: diffLeft rest = (C ++ [c]) ++ diffLeft rest := by simp
      have h2 : ((p : Int) + 1) = (((p + 1 : Nat)) : Int) := by push_cast; ring
      have h3 : ((C.length : Int) - (p : Int))
          = (((C ++ [c]).length : Int) - ((p + 1 : Nat) : Int)) := by
        simp
      rw [h1, h2, h3, ih (C ++ [c]) (p + 1)]
      simp
    case added =>
      rw [diffLeft_cons_added, diffRight_cons_added,
        modifiedOps_cons_added, applyGo_cons_insert]
      rw [show ((p : Int) + ((C.length : Int) - (p : Int))) = (C.length : Int)
          from by ring]
      rw [jsTake_append, jsDrop_append, textLen_mk]
      rw [show ((some [c]).getD "undefined".toList) = [c] from rfl]
      have h2 : ((C.length : Int) - (p : Int)) + (([c].length : Nat) : Int)
          = (((C ++ [c]).length : Nat) : Int) - ((p : Nat) : Int) := by
        simp
        ring
      rw [h2, ih (C ++ [c]) p]
      simp
    case removed =>
      rw [diffLeft_cons_removed, diffRight_cons_removed,
        modifiedOps_cons_removed, applyGo_cons_delete]
      rw [show ((p : Int) + ((C.length : Int) - (p : Int))) = (C.length : Int)
          from by ring]
      rw [lenOrZero_mk, jsTake_append]
      have hY : C ++ c :: diffLeft rest = (C ++ [c]) ++ diffLeft rest := by simp
      have hZ : ((C.length : Int) + 1) = (((C ++ [c]).length : Nat) : Int) := by
        simp
      rw [hY, hZ, jsDrop_append]
      have h2 : ((p : Int) + 1) = (((p + 1 : Nat)) : Int) := by push_cast; ring
      have h3 : ((C.length : Int) - (p : Int)) - 1
          = ((C.length : Nat) : Int) - ((p + 1 : Nat) : Int) := by push_cast; ring
      rw [h2, h3, ih C (p + 1)]

/-- C1: `diff(a, a)` is the empty list, and applying
`diffToOperations(diff(a, b))` to `a` with `applyOperations` yields
exactly `b`: the LCS diff converted to retain/insert/delete operations
round-trips the edit, for every pair of strings. -/
theorem diff_roundtrip (a b : List Char) :
    diff a a = [] ∧ applyOperations a (diffToOperations (diff a b)) = b := by
  constructor
  · simp [diff]
  · by_cases h : a = b
    · subst h
      simp [diff, diffToOperations, diffToOpsGo, applyOperations,
        List.insertionSort, applyGo]
    · have hmap : diff a b = (generateCharacterDiff a b).map charDiffToResult := by
        rw [diff, if_neg h]
      rw [hmap, diffToOperations, diffToOpsGo_map]
      rw [applyOperations, List.Sorted.insertionSort_eq (modifiedOps_sorted _ 0)]
      have hmain := applyGo_modifiedOps (generateCharacterDiff a b) [] 0
      rw [generateCharacterDiff_left, generateCharacterDiff_right] at hmain
      simpa using hmain

/-- Sum of the `length` fields of the retain and delete operations: how
much of the source document an operation list accounts for. -/
def opSourceLen (op : Operation) : Int :=
  match op.type with
  | .retain => lenOrZero op
  | .delete => lenOrZero op
  | .insert => 0

/-- Total source length consumed by an operation list. -/
def sourceLenSum (ops : List Operation) : Int :=
  (ops.map opSourceLen).sum

theorem modifiedOps_shapes (cds : List CharDiff) :
    ∀ p : Int, ∀ op ∈ modifiedOps p cds,
      (op.type = .retain → op.length = some 1) ∧
      (op.type = .delete → op.length = some 1) ∧
      (op.type = .insert → ∃ c, op.text = some [c]) := by
  induction cds with
  | nil => intro p op h; simp [modifiedOps] at h
  | cons cd rest ih =>
    intro p op h
    obtain ⟨c, t⟩ := cd
    cases t
    case added =>
      rw [modifiedOps_cons_added] at h
      rcases List.mem_cons.mp h with h | h
      · subst h
        refine ⟨fun hx => by simp at hx, fun hx => by simp at hx, fun _ => ⟨c, rfl⟩⟩
      · exact ih p op h
    case removed =>
      rw [modifiedOps_cons_removed] at h
      rcases List.mem_cons.mp h with h | h
      · subst h
        refine ⟨fun hx => by simp at hx, fun _ => rfl, fun hx => by simp at hx⟩
      · exact ih (p + 1) op h
    case unchanged =>
      rw [modifiedOps_cons_unchanged] at h
      rcases List.mem_cons.mp h with h | h
      · subst h
        refine ⟨fun _ => rfl, fun hx => by simp at hx, fun hx => by simp at hx⟩
      · exact ih (p + 1) op h

theorem modifiedOps_sum (cds : List CharDiff) :
    ∀ p : Int, sourceLenSum (modifiedOps p cds) = ((diffLeft cds).length : Int) := by
  induction cds with
  | nil => intro p; simp [modifiedOps, sourceLenSum, diffLeft]
  | cons cd rest ih =>
    intro p
    obtain ⟨c, t⟩ := cd
    cases t
    case added =>
      rw [modifiedOps_cons_added, diffLeft_cons_added]
      have : sourceLenSum (Operation.mk .insert none (some [c]) p :: modifiedOps p rest)
          = sourceLenSum (modifiedOps p rest) := by
        simp [sourceLenSum, opSourceLen]
      rw [this, ih p]
    case removed =>
      rw [modifiedOps_cons_removed, diffLeft_cons_removed]
      have : sourceLenSum (Operation.mk .delete (some 1) none p :: modifiedOps (p + 1) rest)
          = 1 + sourceLenSum (modifiedOps (p + 1) rest) := by
        simp [sourceLenSum, opSourceLen, lenOrZero]
      rw [this, ih (p + 1)]
      simp
      ring
    case unchanged =>
      rw [modifiedOps_cons_unchanged, diffLeft_cons_unchanged]
      have : sourceLenSum (Operation.mk .retain (some 1) none p :: modifiedOps (p + 1) rest)
          = 1 + sourceLenSum (modifiedOps (p + 1) rest) := by
        simp [sourceLenSum, opSourceLen, lenOrZero]
      rw [this, ih (p + 1)]
      simp
      ring

theorem modifiedOps_pos_lt (cds : List CharDiff) :
    ∀ p : Int, ∀ op ∈ modifiedOps p cds,
      op.type = .retain ∨ op.type = .delete →
      op.position < p + ((diffLeft cds).length : Int) := by
  induction cds with
  | nil => intro p op h; simp [modifiedOps] at h
  | cons cd rest ih =>
    intro p op h htype
    obtain ⟨c, t⟩ := cd
    cases t
    case added =>
      rw [modifiedOps_cons_added] at h
      rcases List.mem_cons.mp h with h | h
      · subst h; rcases htype with hx | hx <;> simp at hx
      · have := ih p op h htype
        rw [diffLeft_cons_added]
        omega
    case removed =>
      rw [modifiedOps_cons_removed] at h
      rw [diffLeft_cons_removed]
      rcases List.mem_cons.mp h with h | h
      · subst h; simp
      · have := ih (p + 1) op h htype
        simp only [List.length_cons] at *
        push_cast at *
        omega
    case unchanged =>
      rw [modifiedOps_cons_unchanged] at h
      rw [diffLeft_cons_unchanged]
      rcases List.mem_cons.mp h with h | h
      · subst h; simp
      · have := ih (p + 1) op h htype
        simp only [List.length_cons] at *
        push_cast at *
        omega

/-- C10 (amended): for every pair of distinct strings `a ≠ b`, the list
`diffToOperations(diff(a, b))` is in nondecreasing position order, every
retain and delete has length 1 and every insert a single-character text,
the retain/delete lengths sum to exactly `|a|`, and every retain/delete
position is strictly below `|a|`.  (For `a = b` the early-equality return
of `diff` makes the list empty, so the length sum is 0, not `|a|`.) -/
theorem diff_ops_wellformed (a b : List Char) (hne : a ≠ b) :
    List.Sorted posLe (diffToOperations (diff a b)) ∧
    (∀ op ∈ diffToOperations (diff a b),
      (op.type = .retain → op.length = some 1) ∧
      (op.type = .delete → op.length = some 1) ∧
      (op.type = .insert → ∃ c, op.text = some [c])) ∧
    sourceLenSum (diffToOperations (diff a b)) = (a.length : Int) ∧
    (∀ op ∈ diffToOperations (diff a b),
      op.type = .retain ∨ op.type = .delete → op.position < (a.length : Int)) := by
  have hmap : diff a b = (generateCharacterDiff a b).map charDiffToResult := by
    rw [diff, if_neg hne]
  rw [hmap, diffToOperations, diffToOpsGo_map]
  refine ⟨modifiedOps_sorted _ 0, ?_, ?_, ?_⟩
  · intro op hop
    exact modifiedOps_shapes _ 0 op hop
  · rw [modifiedOps_sum, generateCharacterDiff_left]
  · intro op hop htype
    have := modifiedOps_pos_lt _ 0 op hop htype
    rw [generateCharacterDiff_left] at this
    omega

/-- C10 counterexample: at `a = b = "x"` the claim's length-sum clause
fails — `diff("x","x")` is empty by the early-equality return, so the
retain/delete lengths sum to 0, not `|a| = 1`. -/
theorem diff_ops_wellformed_cex :
    ¬ (sourceLenSum (diffToOperations (diff ['x'] ['x']))
        = ((['x'] : List Char).length : Int)) := by decide

/-- Witness for the amended C10 at the concrete input `a = "x"`, `b = ""`. -/
theorem diff_ops_wellformed_witness :
    (['x'] : List Char) ≠ [] ∧
    sourceLenSum (diffToOperations (diff ['x'] []))
      = ((['x'] : List Char).length : Int) :=
  ⟨by decide, (diff_ops_wellformed ['x'] [] (by decide)).2.2.1⟩

/-- C2: whenever `transformOperations` reaches a client insert and a
server insert at the same position, it emits the client insert with its
position increased by exactly the length of the server insert's text
(server wins the anchor); consequently, with base `"ab"`, server content
`"aXb"` and client operations inserting `"Y"` at 1 authored against
`"ab"`, the merge path produces `"aXYb"`. -/
theorem transform_insert_insert_tie :
    (∀ (fuel : Nat) (c s : Operation) (cs ss : List Operation)
       (offset : Int) (acc : List Operation),
       c.position = s.position → c.type = .insert → s.type = .insert →
       transformGo (fuel + 1) (c :: cs) (s :: ss) offset acc
         = transformGo fuel cs ss offset
             (acc ++ [{ c with position := c.position + textLen s }])) ∧
    operationalTransform "ab".toList
        (applyOperations "ab".toList [Operation.mk .insert none (some ['Y']) 1])
        "aXb".toList diffE
      = .ok "aXYb".toList := by
  constructor
  · intro fuel c s cs ss offset acc hpos hct hst
    obtain ⟨ct, cl, cx, cp⟩ := c
    obtain ⟨st, sl, sx, sp⟩ := s
    dsimp only at hpos hct hst
    subst hpos; subst hct; subst hst
    simp only [transformGo]
    rw [if_neg (lt_irrefl cp), if_neg (lt_irrefl cp)]
  · decide

/-- Witness for C2's transform-step clause at a concrete pair of inserts
(client `insert("Y", 1)` against server `insert("X", 1)`). -/
theorem transform_insert_insert_tie_witness :
    ((Operation.mk .insert none (some ['Y']) 1).position
        = (Operation.mk .insert none (some ['X']) 1).position) ∧
    transformGo 1 [Operation.mk .insert none (some ['Y']) 1]
        [Operation.mk .insert none (some ['X']) 1] 0 []
      = transformGo 0 [] [] 0
          ([] ++ [{ Operation.mk .insert none (some ['Y']) 1 with
            position := (Operation.mk .insert none (some ['Y']) 1).position
              + textLen (Operation.mk .insert none (some ['X']) 1) }]) :=
  ⟨rfl, transform_insert_insert_tie.1 0 (Operation.mk .insert none (some ['Y']) 1)
    (Operation.mk .insert none (some ['X']) 1) [] [] 0 [] rfl rfl rfl⟩

/-- C7 counterexample: in the base `"hello"` / server `"ello"` / client
`insert("!", 5)` scenario, the rebased operation list produced by the
merge path is five unit retains followed by `insert("!", 5)` — no
operation sits at position 4, so the claimed rebased `insert("!", 4)`
does not occur. -/
theorem merge_delete_insert_cex :
    transformOperations (diffToOperations (diff "hello".toList "hello!".toList))
        (diffToOperations (diff "hello".toList "ello".toList))
      = [Operation.mk .retain (some 1) none 0, Operation.mk .retain (some 1) none 1,
         Operation.mk .retain (some 1) none 2, Operation.mk .retain (some 1) none 3,
         Operation.mk .retain (some 1) none 4,
         Operation.mk .insert none (some ['!']) 5] ∧
    (Operation.mk .insert none (some ['!']) 4)
      ∉ transformOperations (diffToOperations (diff "hello".toList "hello!".toList))
          (diffToOperations (diff "hello".toList "ello".toList)) := by decide

/-- C7 (amended): in the base `"hello"` / server `"ello"` / client
`insert("!", 5)` scenario the server's `delete(1, 0)` meets the client's
leading `retain(1, 0)` in the equal-position mixed branch, which emits
the client operation without folding the delete into the offset, so the
rebased insert keeps position 5; `applyOperations` clamps that index to
the end of `"ello"` and the merged content is still `"ello!"`. -/
theorem merge_delete_insert :
    transformOperations (diffToOperations (diff "hello".toList "hello!".toList))
        (diffToOperations (diff "hello".toList "ello".toList))
      = [Operation.mk .retain (some 1) none 0, Operation.mk .retain (some 1) none 1,
         Operation.mk .retain (some 1) none 2, Operation.mk .retain (some 1) none 3,
         Operation.mk .retain (some 1) none 4,
         Operation.mk .insert none (some ['!']) 5] ∧
    operationalTransform "hello".toList
        (applyOperations "hello".toList [Operation.mk .insert none (some ['!']) 5])
        "ello".toList diffE
      = .ok "ello!".toList := by decide

/-- The room history of the duplicate-delete scenario: a store holding
the base commit of `"ab"`. -/
def c6Base : Store MirrorHash × MirrorHash :=
  commit mirrorHashFn (emptyStore "note.txt") "ab".toList "base" "t1"

/-- The duplicate delete both clients send: `delete(length=1, position=0)`. -/
def c6Del : Operation := Operation.mk .delete (some 1) none 0

/-- First client's sync against the base (fast-forward). -/
def c6First : Store MirrorHash × List (ServerMsg MirrorHash) × List (ServerMsg MirrorHash) :=
  handleSync mirrorHashFn diffE c6Base.1 (some c6Base.2) [c6Del] "t2"

/-- Second client's identical sync against the now-stale base (merge). -/
def c6Second : Store MirrorHash × List (ServerMsg MirrorHash) × List (ServerMsg MirrorHash) :=
  handleSync mirrorHashFn diffE c6First.1 (some c6Base.2) [c6Del] "t3"

/-- C6 counterexample: in the duplicate-delete scenario the rebased
operation list is not empty — the (delete, delete) tie drops the delete
but the diff-generated trailing `retain(1, 1)` survives the transform. -/
theorem duplicate_delete_cex :
    ¬ (transformOperations (diffToOperations (diff "ab".toList "b".toList))
        (diffToOperations (diff "ab".toList "b".toList)) = []) := by decide

/-- C6 (amended): with base `"ab"` and both clients sending
`delete(1, 0)`, the first commits `"b"`; the second enters the merge
path, the (delete, delete) tie at position 0 drops the client delete and
the rebased list is the single no-effect `retain(1, 1)`; the merged
content equals the server content `"b"`, the broadcast delta is empty so
no update is broadcast, and an ack is still sent to the second client. -/
theorem duplicate_delete_merge :
    getCurrentContent c6First.1 = some "b".toList ∧
    transformOperations (diffToOperations (diff "ab".toList "b".toList))
        (diffToOperations (diff "ab".toList "b".toList))
      = [Operation.mk .retain (some 1) none 1] ∧
    getCurrentContent c6Second.1 = some "b".toList ∧
    c6Second.2.1 = [ServerMsg.ack ((c6Second.1.HEAD).getD (MirrorHash.blob []))] ∧
    c6Second.2.2 = [] := by decide

/-- C9: `applyOperations` is total — it is a function defined on every
content string and every operation list, including operations with
negative or clamped-out-of-range positions and missing `length`/`text`
fields (the concrete clauses exercise each) — so with any non-throwing
diff function the catch-driven `OT failed` branch of
`operationalTransform` is unreachable: the transform always succeeds. -/
theorem applyOperations_total :
    (∀ (base client server : List Char)
       (f : List Char → List Char → Except String (List DiffResult)),
       (∀ x y, ∃ r, f x y = .ok r) →
       ∃ m, operationalTransform base client server f = .ok m) ∧
    applyOperations "ab".toList [Operation.mk .insert none (some ['X']) (-5)]
      = "Xab".toList ∧
    applyOperations "ab".toList [Operation.mk .insert none (some ['X']) 99]
      = "abX".toList ∧
    applyOperations "ab".toList [Operation.mk .delete none none 0]
      = "ab".toList ∧
    applyOperations "ab".toList [Operation.mk .insert none none 1]
      = "aundefinedb".toList := by
  refine ⟨?_, by decide, by decide, by decide, by decide⟩
  intro base client server f hf
  obtain ⟨rs, hrs⟩ := hf base server
  obtain ⟨rc, hrc⟩ := hf base client
  unfold operationalTransform
  rw [hrs, hrc]
  exact ⟨_, rfl⟩

/-- Witness for C9's success clause, instantiated with the repository's
own (total) diff function on concrete contents. -/
theorem applyOperations_total_witness :
    (∀ x y, ∃ r, diffE x y = Except.ok r) ∧
    ∃ m, operationalTransform "a".toList "ab".toList "ba".toList diffE = .ok m :=
  ⟨fun x y => ⟨diff x y, rfl⟩,
    applyOperations_total.1 "a".toList "ab".toList "ba".toList diffE
      (fun x y => ⟨diff x y, rfl⟩)⟩


/-! Version-store well-formedness and invariants

A store is well-formed when every binding's key is the hash of its value
(which `commit` maintains, since it only ever inserts at computed
hashes).  Under hash injectivity — the collision-freedom the SHA-1 design
assumes — commits never change an existing binding observably. -/

/-- Every binding's key is the hash of its value. -/
def WFdb (hashFn : GitObject H → H) [DecidableEq H]
    (db : List (H × GitObject H)) : Prop :=
  ∀ k v, dbGet db k = some v → k = hashFn v

/-- A well-formed store. -/
def WF (hashFn : GitObject H → H) [DecidableEq H] (st : Store H) : Prop :=
  WFdb hashFn st.db

theorem dbGet_cons [DecidableEq H] (k' : H) (v' : GitObject H)
    (rest : List (H × GitObject H)) (k : H) :
    dbGet ((k', v') :: rest) k = if k = k' then some v' else dbGet rest k := rfl

theorem dbGet_insertIfAbsent_mono [DecidableEq H]
    (db : List (H × GitObject H)) (kn : H) (vn : GitObject H) (k : H)
    (v : GitObject H) (h : dbGet db k = some v) :
    dbGet (dbInsertIfAbsent db kn vn) k = some v := by
  rw [dbInsertIfAbsent]
  by_cases hp : (dbGet db kn).isSome
  · rw [if_pos hp]; exact h
  · rw [if_neg hp, dbGet_cons, if_neg ?_]
    · exact h
    · intro hk
      subst hk
      rw [h] at hp
      simp at hp

theorem dbGet_insertIfAbsent_self {hashFn : GitObject H → H} [DecidableEq H]
    (hinj : Function.Injective hashFn) (db : List (H × GitObject H))
    (hwf : WFdb hashFn db) (vn : GitObject H) :
    dbGet (dbInsertIfAbsent db (hashFn vn) vn) (hashFn vn) = some vn := by
  rw [dbInsertIfAbsent]
  by_cases hp : (dbGet db (hashFn vn)).isSome
  · rw [if_pos hp]
    obtain ⟨v, hv⟩ := Option.isSome_iff_exists.mp hp
    have := hwf _ _ hv
    have hveq : v = vn := hinj this.symm
    rw [hv, hveq]
  · rw [if_neg hp, dbGet_cons, if_pos rfl]

theorem dbGet_insertIfAbsent_ne [DecidableEq H]
    (db : List (H × GitObject H)) (kn : H) (vn : GitObject H) (k : H)
    (hne : k ≠ kn) :
    dbGet (dbInsertIfAbsent db kn vn) k = dbGet db k := by
  rw [dbInsertIfAbsent]
  by_cases hp : (dbGet db kn).isSome
  · rw [if_pos hp]
  · rw [if_neg hp, dbGet_cons, if_neg hne]

theorem dbGet_prepend_mono {hashFn : GitObject H → H} [DecidableEq H]
    (hinj : Function.Injective hashFn) (db : List (H × GitObject H))
    (hwf : WFdb hashFn db) (vn : GitObject H) (k : H) (v : GitObject H)
    (h : dbGet db k = some v) :
    dbGet ((hashFn vn, vn) :: db) k = some v := by
  rw [dbGet_cons]
  by_cases hk : k = hashFn vn
  · rw [if_pos hk]
    have := hwf _ _ h
    have hveq : v = vn := hinj (hk ▸ this).symm
    rw [hveq]
  · rw [if_neg hk]
    exact h

theorem WFdb_insertIfAbsent {hashFn : GitObject H → H} [DecidableEq H]
    (db : List (H × GitObject H)) (hwf : WFdb hashFn db) (vn : GitObject H) :
    WFdb hashFn (dbInsertIfAbsent db (hashFn vn) vn) := by
  intro k v h
  rw [dbInsertIfAbsent] at h
  by_cases hp : (dbGet db (hashFn vn)).isSome
  · rw [if_pos hp] at h
    exact hwf _ _ h
  · rw [if_neg hp, dbGet_cons] at h
    by_cases hk : k = hashFn vn
    · rw [if_pos hk] at h
      obtain rfl : vn = v := by injection h
      exact hk
    · rw [if_neg hk] at h
      exact hwf _ _ h

theorem WFdb_prepend {hashFn : GitObject H → H} [DecidableEq H]
    (db : List (H × GitObject H)) (hwf : WFdb hashFn db) (vn : GitObject H) :
    WFdb hashFn ((hashFn vn, vn) :: db) := by
  intro k v h
  rw [dbGet_cons] at h
  by_cases hk : k = hashFn vn
  · rw [if_pos hk] at h
    obtain rfl : vn = v := by injection h
    exact hk
  · rw [if_neg hk] at h
    exact hwf _ _ h

theorem commit_filename [DecidableEq H] (hashFn : GitObject H → H)
    (st : Store H) (c : List Char) (m ts : String) :
    (commit hashFn st c m ts).1.filename = st.filename := rfl

theorem commit_WF [DecidableEq H] (hashFn : GitObject H → H) (st : Store H)
    (c : List Char) (m ts : String) (hwf : WF hashFn st) :
    WF hashFn (commit hashFn st c m ts).1 := by
  have h1 := WFdb_insertIfAbsent st.db hwf (GitObject.blob c)
  have h2 := WFdb_insertIfAbsent _ h1
    (GitObject.tree st.filename (hashFn (GitObject.blob c)))
  exact WFdb_prepend _ h2 _

theorem commit_mono [DecidableEq H] {hashFn : GitObject H → H}
    (hinj : Function.Injective hashFn) (st : Store H) (c : List Char)
    (m ts : String) (hwf : WF hashFn st) (k : H) (v : GitObject H)
    (h : dbGet st.db k = some v) :
    dbGet (commit hashFn st c m ts).1.db k = some v := by
  have h1 := dbGet_insertIfAbsent_mono st.db (hashFn (GitObject.blob c))
    (GitObject.blob c) k v h
  have h2 := dbGet_insertIfAbsent_mono _
    (hashFn (GitObject.tree st.filename (hashFn (GitObject.blob c))))
    (GitObject.tree st.filename (hashFn (GitObject.blob c))) k v h1
  have hwf2 := WFdb_insertIfAbsent _
    (WFdb_insertIfAbsent st.db hwf (GitObject.blob c))
    (GitObject.tree st.filename (hashFn (GitObject.blob c)))
  exact dbGet_prepend_mono hinj _ hwf2 _ k v h2


theorem getContent_of_links [DecidableEq H] (st : Store H) (ch th bh : H)
    (p : Option H) (m ts : String) (c : List Char)
    (h1 : dbGet st.db ch = some (.commit th p m ts))
    (h2 : dbGet st.db th = some (.tree st.filename bh))
    (h3 : dbGet st.db bh = some (.blob c)) :
    getContent st (some ch) = some c := by
  simp [getContent, h1, h2, h3]

theorem getContent_none_of_absent [DecidableEq H] (st : Store H) (h : H)
    (ha : dbGet st.db h = none) :
    getContent st (some h) = none := by
  simp [getContent, ha]

theorem getContent_none_of_tree_missing [DecidableEq H] (st : Store H)
    (h t : H) (p : Option H) (m ts : String)
    (h1 : dbGet st.db h = some (.commit t p m ts))
    (h2 : dbGet st.db t = none) :
    getContent st (some h) = none := by
  simp [getContent, h1, h2]

theorem getContent_none_of_blob_missing [DecidableEq H] (st : Store H)
    (h t bh : H) (p : Option H) (m ts : String) (f : String)
    (h1 : dbGet st.db h = some (.commit t p m ts))
    (h2 : dbGet st.db t = some (.tree f bh))
    (h3 : dbGet st.db bh = none) :
    getContent st (some h) = none := by
  by_cases hf : f = st.filename
  · subst hf
    simp [getContent, h1, h2, h3]
  · simp [getContent, h1, h2, hf]

/-- The three fresh links a `commit` establishes in the store. -/
theorem commit_links [DecidableEq H] {hashFn : GitObject H → H}
    (hinj : Function.Injective hashFn) (st : Store H) (c : List Char)
    (m ts : String) (hwf : WF hashFn st) :
    dbGet (commit hashFn st c m ts).1.db (commit hashFn st c m ts).2
        = some (.commit (hashFn (GitObject.tree st.filename (hashFn (GitObject.blob c))))
            st.HEAD (if m = "" then "Commit at " ++ ts else m) ts) ∧
    dbGet (commit hashFn st c m ts).1.db
        (hashFn (GitObject.tree st.filename (hashFn (GitObject.blob c))))
      = some (.tree st.filename (hashFn (GitObject.blob c))) ∧
    dbGet (commit hashFn st c m ts).1.db (hashFn (GitObject.blob c))
      = some (.blob c) := by
  have hwf1 : WFdb hashFn (dbInsertIfAbsent st.db (hashFn (GitObject.blob c))
      (GitObject.blob c)) := WFdb_insertIfAbsent st.db hwf (GitObject.blob c)
  have hwf2 : WFdb hashFn (dbInsertIfAbsent _
      (hashFn (GitObject.tree st.filename (hashFn (GitObject.blob c))))
      (GitObject.tree st.filename (hashFn (GitObject.blob c)))) :=
    WFdb_insertIfAbsent _ hwf1 (GitObject.tree st.filename (hashFn (GitObject.blob c)))
  have hch : (commit hashFn st c m ts).2
      = hashFn (GitObject.commit
          (hashFn (GitObject.tree st.filename (hashFn (GitObject.blob c))))
          st.HEAD (if m = "" then "Commit at " ++ ts else m) ts) := rfl
  refine ⟨?_, ?_, ?_⟩
  · show dbGet ((hashFn _, _) :: _) _ = _
    rw [hch, dbGet_cons, if_pos rfl]
  · show dbGet ((hashFn (GitObject.commit _ _ _ _), _) :: _) _ = _
    rw [dbGet_cons, if_neg ?_]
    · exact dbGet_insertIfAbsent_self hinj _ hwf1 _
    · intro hk
      have := hinj hk
      simp at this
  · show dbGet ((hashFn (GitObject.commit _ _ _ _), _) :: _) _ = _
    rw [dbGet_cons, if_neg ?_, dbGet_insertIfAbsent_ne _ _ _ _ ?_]
    · exact dbGet_insertIfAbsent_self hinj _ hwf _
    · intro hk
      have := hinj hk
      simp at this
    · intro hk
      have := hinj hk
      simp at this

/-- C3: for every content `c` and message `m` (and clock reading `ts`),
after `commit` the store's head is the returned hash and `getContent`
resolves it back through commit → tree → blob to exactly `c`; and on any
store, `getContent` returns `none` for a null or unknown hash and when
the commit → tree or tree → blob link is missing.  Stated for a
well-formed store under hash injectivity, the collision-freedom the
SHA-1 content addressing assumes. -/
theorem commit_roundtrip [DecidableEq H] (hashFn : GitObject H → H)
    (hinj : Function.Injective hashFn) (st : Store H) (c : List Char)
    (m ts : String) (hwf : WF hashFn st) :
    (getHeadHash (commit hashFn st c m ts).1 = some (commit hashFn st c m ts).2 ∧
     getContent (commit hashFn st c m ts).1 (some (commit hashFn st c m ts).2)
       = some c) ∧
    getContent st none = none ∧
    (∀ h, dbGet st.db h = none → getContent st (some h) = none) ∧
    (∀ h t p m2 ts2, dbGet st.db h = some (.commit t p m2 ts2) →
      dbGet st.db t = none → getContent st (some h) = none) ∧
    (∀ h t bh p m2 ts2 f, dbGet st.db h = some (.commit t p m2 ts2) →
      dbGet st.db t = some (.tree f bh) → dbGet st.db bh = none →
      getContent st (some h) = none) := by
  obtain ⟨l1, l2, l3⟩ := commit_links hinj st c m ts hwf
  refine ⟨⟨rfl, ?_⟩, rfl, fun h ha => getContent_none_of_absent st h ha,
    fun h t p m2 ts2 h1 h2 => getContent_none_of_tree_missing st h t p m2 ts2 h1 h2,
    fun h t bh p m2 ts2 f h1 h2 h3 =>
      getContent_none_of_blob_missing st h t bh p m2 ts2 f h1 h2 h3⟩
  exact getContent_of_links _ _ _ _ _ _ _ c l1 (commit_filename hashFn st c m ts ▸ l2) l3

/-- Witness for C3 at a concrete store: the empty store over the mirror
hash, committing `"hi"`. -/
theorem commit_roundtrip_witness :
    Function.Injective mirrorHashFn ∧
    WF mirrorHashFn (emptyStore "note.txt" : Store MirrorHash) ∧
    (getHeadHash (commit mirrorHashFn (emptyStore "note.txt") "hi".toList "m" "t").1
        = some (commit mirrorHashFn (emptyStore "note.txt") "hi".toList "m" "t").2 ∧
      getContent (commit mirrorHashFn (emptyStore "note.txt") "hi".toList "m" "t").1
          (some (commit mirrorHashFn (emptyStore "note.txt") "hi".toList "m" "t").2)
        = some "hi".toList) :=
  ⟨mirrorHashFn_injective, fun k v h => by simp [dbGet] at h,
    (commit_roundtrip mirrorHashFn mirrorHashFn_injective
      (emptyStore "note.txt") "hi".toList "m" "t"
      (fun k v h => by simp [dbGet] at h)).1⟩


/-- The `HEAD → parent → …` chain is fully resolvable: each hash on it
names a stored commit whose tree and blob resolve within the store, and
the chain bottoms out at a commit with no parent (the `root` case covers
a null `HEAD`).  Being an inductive predicate, a `GoodChain` is finite:
the chain terminates. -/
inductive GoodChain [DecidableEq H] (st : Store H) : Option H → Prop where
  | root : GoodChain st none
  | step : ∀ (h t bh : H) (p : Option H) (m ts : String) (s : List Char),
      dbGet st.db h = some (.commit t p m ts) →
      dbGet st.db t = some (.tree st.filename bh) →
      dbGet st.db bh = some (.blob s) →
      GoodChain st p → GoodChain st (some h)

theorem GoodChain_commit [DecidableEq H] {hashFn : GitObject H → H}
    (hinj : Function.Injective hashFn) (st : Store H) (c : List Char)
    (m ts : String) (hwf : WF hashFn st) (x : Option H)
    (hx : GoodChain st x) :
    GoodChain (commit hashFn st c m ts).1 x := by
  induction hx with
  | root => exact .root
  | step h t bh p m2 ts2 s h1 h2 h3 _ ih =>
    refine .step h t bh p m2 ts2 s
      (commit_mono hinj st c m ts hwf _ _ h1) ?_
      (commit_mono hinj st c m ts hwf _ _ h3) ih
    have := commit_mono hinj st c m ts hwf _ _ h2
    rw [commit_filename]
    exact this

theorem GoodChain_commit_head [DecidableEq H] {hashFn : GitObject H → H}
    (hinj : Function.Injective hashFn) (st : Store H) (c : List Char)
    (m ts : String) (hwf : WF hashFn st) (hchain : GoodChain st st.HEAD) :
    GoodChain (commit hashFn st c m ts).1 (commit hashFn st c m ts).1.HEAD := by
  obtain ⟨l1, l2, l3⟩ := commit_links hinj st c m ts hwf
  have hhead : (commit hashFn st c m ts).1.HEAD
      = some (commit hashFn st c m ts).2 := rfl
  rw [hhead]
  refine .step _ _ _ st.HEAD _ _ c l1 ?_ l3
    (GoodChain_commit hinj st c m ts hwf st.HEAD hchain)
  rw [commit_filename]
  exact l2

theorem commitMany_inv [DecidableEq H] {hashFn : GitObject H → H}
    (hinj : Function.Injective hashFn) :
    ∀ (reqs : List (List Char × String × String)) (st : Store H),
      WF hashFn st → GoodChain st st.HEAD →
      WF hashFn (commitMany hashFn st reqs) ∧
      GoodChain (commitMany hashFn st reqs) (commitMany hashFn st reqs).HEAD := by
  intro reqs
  induction reqs with
  | nil => intro st hwf hchain; exact ⟨hwf, hchain⟩
  | cons r rest ih =>
    intro st hwf hchain
    obtain ⟨c, m, ts⟩ := r
    exact ih (commit hashFn st c m ts).1
      (commit_WF hashFn st c m ts hwf)
      (GoodChain_commit_head hinj st c m ts hwf hchain)

/-- C8: version-store invariants.  For every store reachable by a
sequence of commits from a fresh history: the store is well-formed, and
the `HEAD → parent → …` chain is `GoodChain` — `HEAD` is null or a key
present in the store, the chain terminates at a parentless commit, and
every reachable commit's tree hash and that tree's blob hash resolve.
Moreover one more `commit` preserves well-formedness and the chain, and
never changes an existing binding observably (the blob/tree puts are
skipped at present keys, and the unconditional commit put rewrites the
same value, since under injectivity the key determines the object):
every previously readable binding reads the same afterwards.  Stated
under hash injectivity, the collision-freedom SHA-1 is trusted for. -/
theorem store_invariants [DecidableEq H] (hashFn : GitObject H → H)
    (hinj : Function.Injective hashFn) :
    (∀ (filename : String) (reqs : List (List Char × String × String)),
      WF hashFn (commitMany hashFn (emptyStore filename) reqs) ∧
      GoodChain (commitMany hashFn (emptyStore filename) reqs)
        (commitMany hashFn (emptyStore filename) reqs).HEAD) ∧
    (∀ (st : Store H) (c : List Char) (m ts : String), WF hashFn st →
      GoodChain st st.HEAD →
      WF hashFn (commit hashFn st c m ts).1 ∧
      GoodChain (commit hashFn st c m ts).1 (commit hashFn st c m ts).1.HEAD ∧
      (∀ k v, dbGet st.db k = some v →
        dbGet (commit hashFn st c m ts).1.db k = some v)) := by
  constructor
  · intro filename reqs
    exact commitMany_inv hinj reqs (emptyStore filename)
      (fun k v h => by simp [dbGet] at h) .root
  · intro st c m ts hwf hchain
    exact ⟨commit_WF hashFn st c m ts hwf,
      GoodChain_commit_head hinj st c m ts hwf hchain,
      fun k v h => commit_mono hinj st c m ts hwf k v h⟩

/-- Witness for C8 over the mirror hash: two commits from a fresh
history. -/
theorem store_invariants_witness :
    Function.Injective mirrorHashFn ∧
    (WF mirrorHashFn (commitMany mirrorHashFn (emptyStore "note.txt")
        [("ab".toList, "m1", "t1"), ("b".toList, "m2", "t2")]) ∧
      GoodChain (commitMany mirrorHashFn (emptyStore "note.txt")
          [("ab".toList, "m1", "t1"), ("b".toList, "m2", "t2")])
        (commitMany mirrorHashFn (emptyStore "note.txt")
          [("ab".toList, "m1", "t1"), ("b".toList, "m2", "t2")]).HEAD) :=
  ⟨mirrorHashFn_injective,
    (store_invariants mirrorHashFn mirrorHashFn_injective).1 "note.txt"
      [("ab".toList, "m1", "t1"), ("b".toList, "m2", "t2")]⟩


/-- C4: when the sync message's base hash does not resolve in the room's
store, the handler replies `error("Base hash not found. Please reload.")`
and stops: the history (and so `HEAD`) is unchanged, nothing is
broadcast, and no ack is sent to the sender. -/
theorem handleSync_unknown_base [DecidableEq H] (hashFn : GitObject H → H)
    (f : List Char → List Char → Except String (List DiffResult))
    (st : Store H) (baseHash : Option H) (clientOps : List Operation)
    (ts : String) (h : getContent st baseHash = none) :
    handleSync hashFn f st baseHash clientOps ts
      = (st, [ServerMsg.error "Base hash not found. Please reload."], []) := by
  simp [handleSync, h]

/-- Witness for C4: a hash that is not in the (empty) store. -/
theorem handleSync_unknown_base_witness :
    getContent (emptyStore "note.txt" : Store MirrorHash)
        (some (MirrorHash.blob ['z'])) = none ∧
    handleSync mirrorHashFn diffE (emptyStore "note.txt")
        (some (MirrorHash.blob ['z'])) [] "t1"
      = (emptyStore "note.txt",
         [ServerMsg.error "Base hash not found. Please reload."], []) :=
  ⟨by decide,
    handleSync_unknown_base mirrorHashFn diffE (emptyStore "note.txt")
      (some (MirrorHash.blob ['z'])) [] "t1" (by decide)⟩

/-- C5: when the merge path's operational transform fails, the handler
replies `conflict` with the failure message and stops: it commits
nothing (the history, and so `HEAD` and the object store, is returned
unchanged) and broadcasts nothing. -/
theorem handleSync_ot_failure [DecidableEq H] (hashFn : GitObject H → H)
    (f : List Char → List Char → Except String (List DiffResult))
    (st : Store H) (baseHash : Option H) (clientOps : List Operation)
    (ts : String) (base sc : List Char) (e : String)
    (hbase : getContent st baseHash = some base)
    (hne : baseHash ≠ getHeadHash st)
    (hsc : getCurrentContent st = some sc)
    (hot : operationalTransform base (applyOperations base clientOps) sc f
      = .failure e) :
    handleSync hashFn f st baseHash clientOps ts
      = (st, [ServerMsg.conflict e], []) := by
  simp [handleSync, hbase, if_neg hne, hsc, hot]

/-- The room history of the conflict witness: commits of `""` then
`"a"`, with the client based on the first. -/
def c5Store : Store MirrorHash × MirrorHash :=
  commit mirrorHashFn (emptyStore "note.txt") [] "m1" "t1"

/-- Second commit, moving `HEAD` past the client's base. -/
def c5Store2 : Store MirrorHash × MirrorHash :=
  commit mirrorHashFn c5Store.1 "a".toList "m2" "t2"

/-- A diff function that throws, to drive `operationalTransform` into
its catch branch. -/
def fBoom : List Char → List Char → Except String (List DiffResult) :=
  fun _ _ => .error "boom"

/-- Witness for C5: a stale base plus a throwing diff function yields
the conflict reply and leaves the store untouched. -/
theorem handleSync_ot_failure_witness :
    getContent c5Store2.1 (some c5Store.2) = some [] ∧
    some c5Store.2 ≠ getHeadHash c5Store2.1 ∧
    getCurrentContent c5Store2.1 = some "a".toList ∧
    operationalTransform [] (applyOperations [] []) "a".toList fBoom
      = .failure "OT failed: boom" ∧
    handleSync mirrorHashFn fBoom c5Store2.1 (some c5Store.2) [] "t3"
      = (c5Store2.1, [ServerMsg.conflict "OT failed: boom"], []) :=
  ⟨by decide, by decide, by decide, by decide,
    handleSync_ot_failure mirrorHashFn fBoom c5Store2.1 (some c5Store.2) [] "t3"
      [] "a".toList "OT failed: boom" (by decide) (by decide) (by decide) (by decide)⟩

end Ink
